import Mathlib

/-!
Verification of the swga primer-design utilities.

Shallow embedding of the Python sources:
  * `bg_binding_counts.py`   — overlapping substring counting loop
  * `PrimerSets/filter_primers.py` — record filtering / ranking CLI
  * `swga/primers.py`        — primer catalog core (activation, Tm backfill,
                               chunked upsert, k-mer binary decoding,
                               complementary-binding scoring)

Strings are modelled as `List Char`, byte files as `List Nat` (each entry a
byte value), the relational primer table as a `List` of row structures, and
Python `while` loops as fuel-indexed recursions returning `Option`/`Except`
so that a fuel shortfall is observable (and proved unreachable).
-/

/-! ### bg_binding_counts.py : `bg_binding_freq` -/

/-- Scan of a suffix for the pattern, mirroring CPython `str.find(sub)`
restricted to a suffix: returns the least relative index `i` (ranging over
`0 .. s.length`, inclusive, so the empty pattern matches at the very end)
such that `pat` matches `s` at `i`, else `none`. -/
def strFindIdx (pat : List Char) : List Char → Option Nat
  | [] => if pat.isPrefixOf [] then some 0 else none
  | c :: rest =>
    if pat.isPrefixOf (c :: rest) then some 0
    else (strFindIdx pat rest).map (· + 1)

/-- Python `bg.find(primer, start)`: lowest index `p ≥ start` at which
`primer` occurs in `bg`, and `none` (Python `-1`) if there is none or if
`start` exceeds `bg`'s length. -/
def pyFind (pat bg : List Char) (start : Nat) : Option Nat :=
  if start ≤ bg.length then (strFindIdx pat (bg.drop start)).map (· + start)
  else none

/-- The `while True` loop of `bg_binding_freq`: find the pattern from the
cursor; on a hit re-enter with cursor one past the hit and add one to the
count; on a miss return the count.  `fuel` bounds the iterations; `none`
signals fuel exhaustion (proved unreachable for `fuel ≥ bg.length + 2`). -/
def bind_loop (pat bg : List Char) : Nat → Nat → Option Nat
  | 0, _ => none
  | fuel + 1, start =>
    match pyFind pat bg start with
    | some p => (bind_loop pat bg fuel (p + 1)).map (· + 1)
    | none => some 0

/-- `bg_binding_freq(primer, bg)` from `bg_binding_counts.py`. -/
def bg_binding_freq (primer bg : List Char) : Nat :=
  (bind_loop primer bg (bg.length + 2) 0).getD 0

theorem isPrefixOf_nil_iff {p : List Char} : p.isPrefixOf [] = true ↔ p = [] := by
  cases p <;> simp [List.isPrefixOf]

theorem length_le_of_isPrefixOf :
    ∀ {p l : List Char}, p.isPrefixOf l = true → p.length ≤ l.length
  | [], _, _ => by simp
  | _ :: _, [], h => by simp [List.isPrefixOf] at h
  | a :: p, b :: l, h => by
    simp only [List.isPrefixOf, Bool.and_eq_true] at h
    simpa using Nat.succ_le_succ (length_le_of_isPrefixOf h.2)

theorem strFindIdx_some_le {pat s : List Char} {r : Nat}
    (h : strFindIdx pat s = some r) : r ≤ s.length := by
  induction s generalizing r with
  | nil =>
    unfold strFindIdx at h
    split at h
    · simp only [Option.some.injEq] at h
      omega
    · simp at h
  | cons c rest ih =>
    unfold strFindIdx at h
    split at h
    · simp only [Option.some.injEq] at h
      omega
    · rcases Option.map_eq_some'.1 h with ⟨r', hr', rfl⟩
      simpa using ih hr'

theorem strFindIdx_some_match {pat s : List Char} {r : Nat}
    (h : strFindIdx pat s = some r) : pat.isPrefixOf (s.drop r) = true := by
  induction s generalizing r with
  | nil =>
    unfold strFindIdx at h
    split at h
    · rename_i hm
      simp only [Option.some.injEq] at h
      subst h
      simpa using hm
    · simp at h
  | cons c rest ih =>
    unfold strFindIdx at h
    split at h
    · rename_i hm
      simp only [Option.some.injEq] at h
      subst h
      simpa using hm
    · rcases Option.map_eq_some'.1 h with ⟨r', hr', rfl⟩
      simpa using ih hr'

theorem strFindIdx_some_min {pat s : List Char} {r : Nat}
    (h : strFindIdx pat s = some r) :
    ∀ j, j < r → ¬ pat.isPrefixOf (s.drop j) = true := by
  induction s generalizing r with
  | nil =>
    unfold strFindIdx at h
    split at h
    · simp only [Option.some.injEq] at h
      omega
    · simp at h
  | cons c rest ih =>
    unfold strFindIdx at h
    split at h
    · simp only [Option.some.injEq] at h
      omega
    · rename_i hcond
      rcases Option.map_eq_some'.1 h with ⟨r', hr', rfl⟩
      intro j hj
      cases j with
      | zero => simpa using hcond
      | succ j' => simpa using ih hr' j' (by omega)

theorem strFindIdx_none {pat s : List Char}
    (h : strFindIdx pat s = none) :
    ∀ j, ¬ pat.isPrefixOf (s.drop j) = true := by
  induction s with
  | nil =>
    unfold strFindIdx at h
    split at h
    · simp at h
    · rename_i hcond
      intro j
      simpa using hcond
  | cons c rest ih =>
    unfold strFindIdx at h
    split at h
    · simp at h
    · rename_i hcond
      have hrest : strFindIdx pat rest = none := by
        cases hr : strFindIdx pat rest
        · rfl
        · rw [hr] at h
          simp at h
      intro j
      cases j with
      | zero => simpa using hcond
      | succ j' => simpa using ih hrest j'

theorem pyFind_some {pat bg : List Char} {start p : Nat}
    (h : pyFind pat bg start = some p) :
    start ≤ p ∧ p ≤ bg.length ∧ pat.isPrefixOf (bg.drop p) = true ∧
      ∀ j, start ≤ j → j < p → ¬ pat.isPrefixOf (bg.drop j) = true := by
  unfold pyFind at h
  split at h
  · rename_i hs
    rcases Option.map_eq_some'.1 h with ⟨r, hr, rfl⟩
    have h1 := strFindIdx_some_le hr
    have h2 := strFindIdx_some_match hr
    have h3 := strFindIdx_some_min hr
    rw [List.length_drop] at h1
    rw [List.drop_drop] at h2
    refine ⟨by omega, by omega, ?_, ?_⟩
    · rw [show r + start = start + r by omega]
      exact h2
    · intro j hj1 hj2
      have := h3 (j - start) (by omega)
      rw [List.drop_drop, show start + (j - start) = j by omega] at this
      exact this
  · simp at h

theorem pyFind_none {pat bg : List Char} {start : Nat}
    (h : pyFind pat bg start = none) :
    ∀ j, start ≤ j → j ≤ bg.length → ¬ pat.isPrefixOf (bg.drop j) = true := by
  unfold pyFind at h
  split at h
  · rename_i hs
    have hn : strFindIdx pat (bg.drop start) = none := by
      cases hr : strFindIdx pat (bg.drop start)
      · rfl
      · rw [hr] at h
        simp at h
    intro j hj _
    have := strFindIdx_none hn (j - start)
    rw [List.drop_drop, show start + (j - start) = j by omega] at this
    exact this
  · rename_i hs
    intro j hj hjl
    exfalso
    omega

theorem bind_loop_eq (pat bg : List Char) :
    ∀ fuel start, start ≤ bg.length + 1 → bg.length + 1 - start < fuel →
      bind_loop pat bg fuel start =
        some ((List.range' start (bg.length + 1 - start)).countP
          (fun i => pat.isPrefixOf (bg.drop i))) := by
  intro fuel
  induction fuel with
  | zero =>
    intro start h1 h2
    omega
  | succ fuel ih =>
    intro start h1 h2
    unfold bind_loop
    cases hf : pyFind pat bg start with
    | none =>
      have hcount : (List.range' start (bg.length + 1 - start)).countP
          (fun i => pat.isPrefixOf (bg.drop i)) = 0 := by
        apply List.countP_eq_zero.2
        intro a ha
        rcases List.mem_range'.1 ha with ⟨k, hk, rfl⟩
        have := pyFind_none hf (start + 1 * k) (by omega) (by omega)
        simpa using this
      rw [hcount]
    | some p =>
      obtain ⟨hsp, hpl, hmatch, hmin⟩ := pyFind_some hf
      show (bind_loop pat bg fuel (p + 1)).map (· + 1) = _
      rw [ih (p + 1) (by omega) (by omega)]
      simp only [Option.map_some']
      congr 1
      have e1 : List.range' start (bg.length + 1 - start) =
          List.range' start (p - start) ++ List.range' p (bg.length + 1 - p) := by
        have happ := List.range'_append start (p - start) (bg.length + 1 - p) 1
        rw [show start + 1 * (p - start) = p by omega,
          show bg.length + 1 - p + (p - start) = bg.length + 1 - start by omega] at happ
        exact happ.symm
      have e2 : List.range' p (bg.length + 1 - p) =
          p :: List.range' (p + 1) (bg.length - p) := by
        rw [show bg.length + 1 - p = (bg.length - p) + 1 by omega, List.range'_succ]
      have hz : (List.range' start (p - start)).countP
          (fun i => pat.isPrefixOf (bg.drop i)) = 0 := by
        apply List.countP_eq_zero.2
        intro a ha
        rcases List.mem_range'.1 ha with ⟨k, hk, rfl⟩
        exact hmin (start + 1 * k) (by omega) (by omega)
      rw [e1, List.countP_append, e2, List.countP_cons, hz, hmatch,
        show bg.length + 1 - (p + 1) = bg.length - p by omega]
      simp

/-- C2: for every non-empty primer `p` and genome `g`, `bg_binding_freq p g`
is the number of positions `i` with `0 ≤ i ≤ g.length - p.length` at which
`p` occurs as a substring of `g`, overlapping occurrences included (the
cursor advances by one character after each match, not by `p.length`). -/
theorem C2_bg_binding_freq_overlap_count (p g : List Char) (hp : p ≠ []) :
    bg_binding_freq p g =
      (List.range (g.length + 1 - p.length)).countP
        (fun i => p.isPrefixOf (g.drop i)) := by
  unfold bg_binding_freq
  rw [bind_loop_eq p g (g.length + 2) 0 (by omega) (by omega)]
  simp only [Option.getD_some, Nat.sub_zero]
  have hp1 : 1 ≤ p.length := List.length_pos.2 hp
  have e1 : List.range' 0 (g.length + 1) =
      List.range' 0 (g.length + 1 - p.length) ++
        List.range' (g.length + 1 - p.length)
          (g.length + 1 - (g.length + 1 - p.length)) := by
    have happ := List.range'_append 0 (g.length + 1 - p.length)
      (g.length + 1 - (g.length + 1 - p.length)) 1
    rw [show 0 + 1 * (g.length + 1 - p.length) = g.length + 1 - p.length by omega,
      show g.length + 1 - (g.length + 1 - p.length) + (g.length + 1 - p.length)
        = g.length + 1 by omega] at happ
    exact happ.symm
  have hz : (List.range' (g.length + 1 - p.length)
      (g.length + 1 - (g.length + 1 - p.length))).countP
        (fun i => p.isPrefixOf (g.drop i)) = 0 := by
    apply List.countP_eq_zero.2
    intro a ha
    rcases List.mem_range'.1 ha with ⟨k, hk, rfl⟩
    intro hpre
    have hlen := length_le_of_isPrefixOf hpre
    rw [List.length_drop] at hlen
    omega
  rw [e1, List.countP_append, hz, List.range_eq_range']
  omega

/-- Witness for C2 at primer `"AA"` and genome `"AAAA"`: the count of
overlapping occurrences is 3, as the claim states. -/
theorem C2_witness :
    (bg_binding_freq ['A', 'A'] ['A', 'A', 'A', 'A'] =
      (List.range (['A', 'A', 'A', 'A'].length + 1 - ['A', 'A'].length)).countP
        (fun i => ['A', 'A'].isPrefixOf (['A', 'A', 'A', 'A'].drop i))) ∧
      bg_binding_freq ['A', 'A'] ['A', 'A', 'A', 'A'] = 3 :=
  ⟨C2_bg_binding_freq_overlap_count ['A', 'A'] ['A', 'A', 'A', 'A'] (by decide),
    by decide⟩

/-- C10: the `bg_binding_freq` loop terminates on every pair of inputs
(the cursor strictly increases and is bounded by the genome length, so the
fuel bound `bg.length + 2` is never exhausted), and in particular for the
empty primer it returns `g.length + 1` rather than looping forever. -/
theorem C10_bg_binding_freq_terminates (p g : List Char) :
    (bind_loop p g (g.length + 2) 0).isSome = true ∧
      bg_binding_freq [] g = g.length + 1 := by
  constructor
  · rw [bind_loop_eq p g (g.length + 2) 0 (by omega) (by omega)]
    rfl
  · unfold bg_binding_freq
    rw [bind_loop_eq [] g (g.length + 2) 0 (by omega) (by omega)]
    simp only [Option.getD_some, Nat.sub_zero]
    have : ∀ a ∈ List.range' 0 (g.length + 1),
        (fun i => ([] : List Char).isPrefixOf (g.drop i)) a = true := by
      intro a _
      simp [List.isPrefixOf]
    rw [List.countP_eq_length.2 this, List.length_range']

/-! ### swga/primers.py : `max_consecutive_binding` -/

/-- The `binding` pairing table of `max_consecutive_binding`: Watson-Crick
complement for the four bases, and `none` (the table's Python value `False`,
which compares unequal to every character) for the padding placeholder `'_'`.
CPython raises `KeyError` for characters outside the table; the model treats
them as non-pairing, which coincides with the source on the `{A, C, G, T, _}`
domain the function is claimed (and used) on. -/
def binding : Char → Option Char
  | 'A' => some 'T'
  | 'T' => some 'A'
  | 'C' => some 'G'
  | 'G' => some 'C'
  | _ => none

/-- Python `binding[mer1[offset + x]] == mer2[x]`. -/
def bindsTo (a b : Char) : Bool := decide (binding a = some b)

/-- The inner `for x in range(len(mer2))` loop of `max_consecutive_binding`,
threading the `(consecutive, max_bind)` state. -/
def mcb_inner (m1p m2r : List Char) (offset : Nat) (start : Nat × Nat) :
    Nat × Nat :=
  (List.range m2r.length).foldl
    (fun st x =>
      if bindsTo (m1p.getD (offset + x) '_') (m2r.getD x '_') then
        (st.1 + 1, max (st.1 + 1) st.2)
      else (0, st.2))
    start

/-- `max_consecutive_binding(mer1, mer2)` from `swga/primers.py`: swap so the
first operand is not shorter, reverse the second, right-pad the first with
`'_'` by the second's length, then scan every offset of the original first
length, tracking the best consecutive-pairing run. -/
def max_consecutive_binding (mer1 mer2 : List Char) : Nat :=
  let pair := if mer2.length > mer1.length then (mer2, mer1) else (mer1, mer2)
  let m1 := pair.1
  let m2 := pair.2
  let m2r := m2.reverse
  let m1p := m1 ++ List.replicate m2.length '_'
  (List.range m1.length).foldl
    (fun mb offset => (mcb_inner m1p m2r offset (0, mb)).2) 0

/-- Modelled from the spec: the standard Watson-Crick pairing relation
(A pairs T, C pairs G, nothing else pairs). -/
def pairsWC (a b : Char) : Bool :=
  decide ((a = 'A' ∧ b = 'T') ∨ (a = 'T' ∧ b = 'A') ∨
    (a = 'C' ∧ b = 'G') ∨ (a = 'G' ∧ b = 'C'))

/-- Longest run of `true` values in a boolean sequence, continuing an
incoming run of length `c`. `maxRunFrom 0 bs` is the maximum run length
of consecutive `true`s in `bs` (0 if none). -/
def maxRunFrom (c : Nat) : List Bool → Nat
  | [] => c
  | b :: bs => if b then maxRunFrom (c + 1) bs else max c (maxRunFrom 0 bs)

/-- Modelled from the spec: the pairing profile obtained by aligning the
reverse of the shorter operand at `offset` within the longer operand;
positions falling beyond the longer operand never pair. -/
def alignProfile (lng shrt : List Char) (offset : Nat) : List Bool :=
  (List.range shrt.length).map
    (fun x =>
      if offset + x < lng.length then
        pairsWC (lng.getD (offset + x) '_') (shrt.reverse.getD x '_')
      else false)

/-- Modelled from the spec (§4.9): the maximum, over all offsets from 0 to
`len(longer) - 1`, of the longest run of consecutive Watson-Crick pairings
in the corresponding alignment profile; 0 if no pairing ever occurs. -/
def spec_max_consecutive_binding (mer1 mer2 : List Char) : Nat :=
  let pair := if mer2.length > mer1.length then (mer2, mer1) else (mer1, mer2)
  ((List.range pair.1.length).map
    (fun offset => maxRunFrom 0 (alignProfile pair.1 pair.2 offset))).foldr max 0

theorem bindsTo_eq_pairsWC (a b : Char) : bindsTo a b = pairsWC a b := by
  unfold bindsTo binding pairsWC
  split <;> simp_all +decide [eq_comm]

theorem bindsTo_pad (b : Char) : bindsTo '_' b = false := by
  simp [bindsTo, binding]

theorem getD_replicate_self (n i : Nat) (c : Char) :
    (List.replicate n c).getD i c = c := by
  induction n generalizing i with
  | zero => simp
  | succ n ih =>
    cases i with
    | zero => simp [List.replicate]
    | succ j =>
      simp only [List.replicate_succ, List.getD_cons_succ]
      exact ih j

theorem le_maxRunFrom : ∀ (bs : List Bool) (c : Nat), c ≤ maxRunFrom c bs
  | [], c => Nat.le_refl c
  | b :: bs, c => by
    unfold maxRunFrom
    cases b with
    | true =>
      simp only [reduceIte]
      exact Nat.le_trans (Nat.le_succ c) (le_maxRunFrom bs (c + 1))
    | false =>
      simp only [Bool.false_eq_true, if_false]
      exact Nat.le_max_left c _

theorem foldl_run_aux :
    ∀ (bs : List Bool) (c m : Nat), c ≤ m →
      (bs.foldl
        (fun st b => if b then (st.1 + 1, max (st.1 + 1) st.2) else (0, st.2))
        (c, m)).2
        = max m (maxRunFrom c bs)
  | [], c, m, h => by
    simp [maxRunFrom, Nat.max_eq_left h]
  | b :: bs, c, m, h => by
    cases b with
    | true =>
      have hrec := foldl_run_aux bs (c + 1) (max (c + 1) m) (Nat.le_max_left _ _)
      have hle := le_maxRunFrom bs (c + 1)
      simp only [List.foldl_cons, maxRunFrom, reduceIte]
      rw [hrec]
      omega
    | false =>
      have hrec := foldl_run_aux bs 0 m (Nat.zero_le m)
      simp only [List.foldl_cons, maxRunFrom, Bool.false_eq_true, if_false]
      rw [hrec]
      omega

theorem code_profile_eq (m1 m2 : List Char) (offset : Nat)
    (hoff : offset < m1.length) :
    ∀ x ∈ List.range m2.reverse.length,
      bindsTo ((m1 ++ List.replicate m2.length '_').getD (offset + x) '_')
          (m2.reverse.getD x '_') =
        (if offset + x < m1.length then
          pairsWC (m1.getD (offset + x) '_') (m2.reverse.getD x '_')
        else false) := by
  intro x hx
  rw [List.mem_range, List.length_reverse] at hx
  by_cases hin : offset + x < m1.length
  · rw [if_pos hin, List.getD_append _ _ _ _ hin, bindsTo_eq_pairsWC]
  · rw [if_neg hin,
      List.getD_append_right _ _ _ _ (by omega),
      getD_replicate_self, bindsTo_pad]

theorem mcb_core_aux (m1 m2 : List Char) :
    ∀ (l : List Nat), (∀ o ∈ l, o < m1.length) → ∀ m : Nat,
      l.foldl
        (fun mb offset =>
          (mcb_inner (m1 ++ List.replicate m2.length '_') m2.reverse offset
            (0, mb)).2) m
        = max m
          ((l.map (fun o => maxRunFrom 0 (alignProfile m1 m2 o))).foldr max 0) := by
  intro l
  induction l with
  | nil =>
    intro _ m
    simp
  | cons o rest ih =>
    intro hall m
    have ho : o < m1.length := hall o (List.mem_cons_self o rest)
    have hstep :
        (mcb_inner (m1 ++ List.replicate m2.length '_') m2.reverse o (0, m)).2
          = max m (maxRunFrom 0 (alignProfile m1 m2 o)) := by
      unfold mcb_inner
      have hmap :
          (List.range m2.reverse.length).map
            (fun x =>
              bindsTo ((m1 ++ List.replicate m2.length '_').getD (o + x) '_')
                (m2.reverse.getD x '_'))
            = alignProfile m1 m2 o := by
        unfold alignProfile
        rw [List.length_reverse]
        apply List.map_congr_left
        intro x hx
        have := code_profile_eq m1 m2 o ho x
          (by rw [List.length_reverse]; exact hx)
        exact this
      rw [← hmap, ← List.foldl_map
        (fun x =>
          bindsTo ((m1 ++ List.replicate m2.length '_').getD (o + x) '_')
            (m2.reverse.getD x '_'))
        (fun st b => if b then (st.1 + 1, max (st.1 + 1) st.2) else (0, st.2))]
      exact foldl_run_aux _ 0 m (Nat.zero_le m)
    simp only [List.foldl_cons, List.map_cons, List.foldr_cons]
    rw [hstep, ih (fun o ho => hall o (List.mem_cons_of_mem _ ho))]
    omega

/-- C3: for operands over the alphabet `{A, C, G, T}`,
`max_consecutive_binding` returns the maximum run length of consecutive
Watson-Crick complementary pairings obtained by aligning the reverse of the
shorter operand at every offset from 0 to `len(longer) - 1` within the
longer operand, and 0 if no pairing ever occurs. -/
theorem C3_max_consecutive_binding_spec (mer1 mer2 : List Char)
    (h1 : ∀ c ∈ mer1, c = 'A' ∨ c = 'C' ∨ c = 'G' ∨ c = 'T')
    (h2 : ∀ c ∈ mer2, c = 'A' ∨ c = 'C' ∨ c = 'G' ∨ c = 'T') :
    max_consecutive_binding mer1 mer2 = spec_max_consecutive_binding mer1 mer2 := by
  unfold max_consecutive_binding spec_max_consecutive_binding
  by_cases h : mer2.length > mer1.length
  · simp only [h, if_true]
    rw [mcb_core_aux mer2 mer1 (List.range mer2.length)
      (fun o ho => List.mem_range.1 ho) 0]
    omega
  · simp only [h, if_false]
    rw [mcb_core_aux mer1 mer2 (List.range mer1.length)
      (fun o ho => List.mem_range.1 ho) 0]
    omega

/-- Witness for C3: the claim's two concrete cases,
`max_consecutive_binding("AAAA", "TTTT") = 4` and
`max_consecutive_binding("AAAA", "AAAA") = 0`. -/
theorem C3_witness :
    (max_consecutive_binding ['A', 'A', 'A', 'A'] ['T', 'T', 'T', 'T'] =
      spec_max_consecutive_binding ['A', 'A', 'A', 'A'] ['T', 'T', 'T', 'T']) ∧
      max_consecutive_binding ['A', 'A', 'A', 'A'] ['T', 'T', 'T', 'T'] = 4 ∧
      max_consecutive_binding ['A', 'A', 'A', 'A'] ['A', 'A', 'A', 'A'] = 0 :=
  ⟨C3_max_consecutive_binding_spec _ _ (by decide) (by decide),
    by decide, by decide⟩

/-! ### PrimerSets/filter_primers.py -/

/-- Lightweight scored-primer record parsed by the PrimerSets support
library (sequence, foreground count, background count, selectivity ratio).
The Python `ratio` is a float used only for ordering; it is modelled by an
integer-valued key carrying the same total order. -/
structure ScoredPrimer where
  seq : List Char
  fg_freq : Int
  bg_freq : Int
  ratio : Int
deriving DecidableEq

/-- Key of `sorted(primers, key=attrgetter("bg_freq"))`. -/
def bgLe (a b : ScoredPrimer) : Prop := a.bg_freq ≤ b.bg_freq

instance : DecidableRel bgLe := fun a b => Int.decLe a.bg_freq b.bg_freq

instance : IsTotal ScoredPrimer bgLe := ⟨fun a b => Int.le_total a.bg_freq b.bg_freq⟩

instance : IsTrans ScoredPrimer bgLe := ⟨fun _ _ _ => Int.le_trans⟩

/-- Key of `sorted(primers, key=attrgetter("ratio"))`. -/
def ratioLe (a b : ScoredPrimer) : Prop := a.ratio ≤ b.ratio

instance : DecidableRel ratioLe := fun a b => Int.decLe a.ratio b.ratio

instance : IsTotal ScoredPrimer ratioLe := ⟨fun a b => Int.le_total a.ratio b.ratio⟩

instance : IsTrans ScoredPrimer ratioLe := ⟨fun _ _ _ => Int.le_trans⟩

/-- Python list slice `l[0:n]` with an `int` bound: a nonnegative `n` keeps
the first `n` elements, a negative `n` stops `-n` elements before the end. -/
def pySlice {α : Type} (l : List α) (n : Int) : List α :=
  if 0 ≤ n then l.take n.toNat else l.take (l.length - (-n).toNat)

/-- `filter_primers(args)` from `PrimerSets/filter_primers.py`: sort by
background count (Python `sorted` is stable, modelled by the stable
`List.insertionSort`), drop records with `bg_freq > max_bg_binding`, sort
the survivors by ratio, and return the slice `[0:num_primers]`. -/
def filter_primers (primers : List ScoredPrimer)
    (max_bg_binding num_primers : Int) : List ScoredPrimer :=
  pySlice
    (List.insertionSort ratioLe
      ((List.insertionSort bgLe primers).filter
        (fun p => decide (p.bg_freq ≤ max_bg_binding))))
    num_primers

theorem pySlice_sublist {α : Type} (l : List α) (n : Int) :
    (pySlice l n).Sublist l := by
  unfold pySlice
  split
  · exact List.take_sublist _ _
  · exact List.take_sublist _ _

/-- C1 (amended): every record surviving `filter_primers` has
`bg_freq ≤ max_bg_binding` (records exactly at the ceiling are kept), the
output is sorted ascending by ratio, and — provided `num_primers ≥ 0` —
the output length is the minimum of `num_primers` and the number of records
passing the ceiling.  (For negative `num_primers` the Python slice
`[0:num_primers]` instead stops before the end of the list, so the
original unrestricted length equation fails; see the counterexample.) -/
theorem C1_filter_primers_amended (ps : List ScoredPrimer) (M n : Int) :
    (∀ q ∈ filter_primers ps M n, q.bg_freq ≤ M) ∧
      List.Sorted ratioLe (filter_primers ps M n) ∧
      (0 ≤ n → (filter_primers ps M n).length =
        min n.toNat (ps.countP (fun p => decide (p.bg_freq ≤ M)))) := by
  refine ⟨?_, ?_, ?_⟩
  · intro q hq
    have hq3 := (pySlice_sublist _ n).subset hq
    rw [List.mem_insertionSort] at hq3
    have := (List.mem_filter.1 hq3).2
    simpa using this
  · exact List.Pairwise.sublist (pySlice_sublist _ n)
      (List.sorted_insertionSort ratioLe _)
  · intro hn
    unfold filter_primers pySlice
    rw [if_pos hn, List.length_take, List.length_insertionSort,
      ← List.countP_eq_length_filter, (List.perm_insertionSort bgLe ps).countP_eq]

/-- Counterexample for C1 as stated: with one record that passes the
ceiling and `num_primers = -1` (argparse accepts any `int`), the Python
slice `[0:-1]` yields the empty list, whose length 0 is not the integer
minimum `min (-1) 1 = -1`.  So the length clause fails for negative
`num_primers`. -/
theorem C1_counterexample :
    ¬ (((filter_primers [⟨['A'], 1, 0, 0⟩] 0 (-1)).length : Int) =
        min (-1 : Int)
          (([⟨['A'], 1, 0, 0⟩] : List ScoredPrimer).countP
            (fun p => decide (p.bg_freq ≤ 0)) : Int)) := by
  decide

/-- Witness for C1 at the spec's worked example
(`A(bg=2, ratio=0.10), B(bg=10, ratio=0.05), C(bg=1, ratio=0.20)`, ratios
scaled by 100, `max_bg_binding = 5`, `num_primers = 2`): the length clause
is discharged at `num_primers = 2 ≥ 0` and the output is `[A, C]`. -/
theorem C1_witness :
    ((filter_primers
        [⟨['A'], 0, 2, 10⟩, ⟨['B'], 0, 10, 5⟩, ⟨['C'], 0, 1, 20⟩] 5 2).length =
      min ((2 : Int)).toNat
        (([⟨['A'], 0, 2, 10⟩, ⟨['B'], 0, 10, 5⟩, ⟨['C'], 0, 1, 20⟩] :
            List ScoredPrimer).countP (fun p => decide (p.bg_freq ≤ 5)))) ∧
      filter_primers
          [⟨['A'], 0, 2, 10⟩, ⟨['B'], 0, 10, 5⟩, ⟨['C'], 0, 1, 20⟩] 5 2 =
        [⟨['A'], 0, 2, 10⟩, ⟨['C'], 0, 1, 20⟩] :=
  ⟨(C1_filter_primers_amended
      [⟨['A'], 0, 2, 10⟩, ⟨['B'], 0, 10, 5⟩, ⟨['C'], 0, 1, 20⟩] 5 2).2.2
    (by decide), by decide⟩

/-- Destination names declared by `main`'s argument parser in
`PrimerSets/filter_primers.py` (`-M --max_bg_binding`, `-n --num_primers`,
`-i --input`, `-o --output`, `-v --verbose`); no `--quiet` flag is declared. -/
def filter_primers_dests : List String :=
  ["max_bg_binding", "num_primers", "input", "output", "verbose"]

/-- Failure mode of `main` in `PrimerSets/filter_primers.py`. -/
inductive MainError where
  | attributeError : MainError
deriving DecidableEq

/-- The argument namespace built by `main`: `parser.set_defaults(**defaults)`
makes every key of the loaded `filter_primers` configuration section an
attribute, and each declared option contributes its destination name.
`getattr` on anything else raises `AttributeError`. -/
def namespaceHasAttr (cfg_keys : List String) (attr : String) : Bool :=
  decide (attr ∈ filter_primers_dests) || decide (attr ∈ cfg_keys)

/-- `main()` of `PrimerSets/filter_primers.py` after argument parsing:
`if not args.quiet and args.input.name == '<stdin>'` evaluates `args.quiet`
unconditionally (Python's `and` evaluates its left operand first), so when
the namespace lacks `quiet` the command dies with `AttributeError` before
`filter_primers` runs or any record is written; otherwise it filters and
writes the records. -/
def filter_primers_main (cfg_keys : List String) (primers : List ScoredPrimer)
    (max_bg_binding num_primers : Int) : Except MainError (List ScoredPrimer) :=
  if namespaceHasAttr cfg_keys "quiet" then
    Except.ok (filter_primers primers max_bg_binding num_primers)
  else
    Except.error MainError.attributeError

/-- C9: whenever the loaded configuration section supplies no `quiet` value,
`main` fails with an attribute-resolution failure before filtering or
writing anything (the parser declares no `--quiet` flag), and conversely a
configuration-supplied `quiet` is the only way to let the command proceed. -/
theorem C9_filter_primers_main_quiet (cfg_keys : List String)
    (primers : List ScoredPrimer) (M n : Int) :
    ("quiet" ∉ cfg_keys →
        filter_primers_main cfg_keys primers M n =
          Except.error MainError.attributeError) ∧
      ("quiet" ∈ cfg_keys →
        filter_primers_main cfg_keys primers M n =
          Except.ok (filter_primers primers M n)) := by
  constructor
  · intro hno
    unfold filter_primers_main namespaceHasAttr
    rw [if_neg]
    simp only [Bool.or_eq_true, decide_eq_true_eq]
    rintro (h | h)
    · revert h
      decide
    · exact hno h
  · intro hyes
    unfold filter_primers_main namespaceHasAttr
    rw [if_pos]
    simp only [Bool.or_eq_true, decide_eq_true_eq]
    exact Or.inr hyes

/-- Witness for C9: with an empty configuration section the command fails
with `AttributeError`; with a section supplying `quiet` it proceeds. -/
theorem C9_witness :
    (filter_primers_main [] [] 0 0 = Except.error MainError.attributeError) ∧
      filter_primers_main ["quiet"] [] 0 0 = Except.ok (filter_primers [] 0 0) :=
  ⟨(C9_filter_primers_main_quiet [] [] 0 0).1 (by decide),
    (C9_filter_primers_main_quiet ["quiet"] [] 0 0).2 (by decide)⟩

/-! ### swga/primers.py : `_parse_kmer_binary` -/

/-- Exact read from a byte stream: `struct.unpack` applied to `f.read(n)`
fails (`struct.error`) when fewer than `n` bytes remain, so the model
returns `none` in that case and otherwise the `n` bytes read plus the rest. -/
def readExact (n : Nat) (bs : List Nat) : Option (List Nat × List Nat) :=
  if n ≤ bs.length then some (bs.take n, bs.drop n) else none

/-- Little-endian integer value of a byte list.  The header fields (`'i'`)
and the record frequency (`'I'`) are little-endian; the values the format
produces are nonnegative and well below `2^31`, so they are modelled as
`Nat`. -/
def leNat (bytes : List Nat) : Nat :=
  bytes.foldr (fun b acc => b + 256 * acc) 0

/-- The decode table `"ACTG"[v]` applied to a 2-bit code. -/
def actgChar (v : Nat) : Char :=
  match v with
  | 0 => 'A'
  | 1 => 'C'
  | 2 => 'T'
  | _ => 'G'

/-- Decode the first `i` base indices of a packed k-mer, prepending each
base exactly as the Python loop `kmer = "ACTG"[...] + kmer` does (so base
index `k - 1` ends up leftmost): base index `i` takes the 2 bits at position
`2 * (i % 4)` of byte `i / 4`.  A byte index beyond the packed bytes is
Python's `IndexError`, modelled as `none`. -/
def decodeKmer (kbytes : List Nat) : Nat → Option (List Char)
  | 0 => some []
  | i + 1 =>
    match decodeKmer kbytes i, kbytes[i / 4]? with
    | some s, some b => some (actgChar ((b >>> (2 * (i % 4))) % 4) :: s)
    | _, _ => none

/-- Outcomes of `_parse_kmer_binary` other than a decoded list:
`headerShort` models a `struct.error` while reading the 8-byte header (the
file is deleted and the failure re-raised); `badIndex` models an
uncaught `IndexError` while decoding a record from a pathological header;
`outOfFuel` marks fuel exhaustion and is proved unreachable. -/
inductive ParseErr where
  | headerShort : ParseErr
  | badIndex : ParseErr
  | outOfFuel : ParseErr
deriving DecidableEq

/-- The `while True` record loop of `_parse_kmer_binary`: read the packed
k-mer bytes, read the 4-byte frequency, decode, accumulate; any
`struct.error` (short read) here is caught by `except struct.error: pass`
and ends the stream normally with the records decoded so far. -/
def parseRecords (nbytes k : Nat) :
    Nat → List Nat → List (List Char × Nat) →
      Except ParseErr (List (List Char × Nat))
  | 0, _, _ => Except.error ParseErr.outOfFuel
  | fuel + 1, bs, acc =>
    match readExact nbytes bs with
    | none => Except.ok acc.reverse
    | some (kb, bs1) =>
      match readExact 4 bs1 with
      | none => Except.ok acc.reverse
      | some (fb, bs2) =>
        match decodeKmer kb k with
        | none => Except.error ParseErr.badIndex
        | some km => parseRecords nbytes k fuel bs2 ((km, leNat fb) :: acc)

/-- `_parse_kmer_binary(fp)` from `swga/primers.py`: unpack `kmer_nbits`
and `k` from the 8-byte header — a `struct.error` there deletes the file
and re-raises — then decode records of `kmer_nbits / 8` packed bytes plus a
4-byte frequency until a short read ends the stream. -/
def parse_kmer_binary (bs : List Nat) : Except ParseErr (List (List Char × Nat)) :=
  match readExact 4 bs with
  | none => Except.error ParseErr.headerShort
  | some (nb, bs1) =>
    match readExact 4 bs1 with
    | none => Except.error ParseErr.headerShort
    | some (kb, bs2) =>
      parseRecords (leNat nb / 8) (leNat kb) (bs2.length + 1) bs2 []

/-- Modelled from the spec: the 2-bit code table `A=0, C=1, T=2, G=3` of
the packing produced by the external counting tool (not in this source
tree). -/
def baseCode : Char → Nat
  | 'A' => 0
  | 'C' => 1
  | 'T' => 2
  | _ => 3

/-- Modelled from the spec: the packing that `_parse_kmer_binary` inverts.
Base index `i` counts from the rightmost character of the k-mer (the
decoder prepends, so base index `k - 1` ends up leftmost), and its 2-bit
code is stored at bit position `2 * (i % 4)` of byte `i / 4`. -/
def encodeKmer (s : List Char) : List Nat :=
  (List.range ((s.length + 3) / 4)).map
    (fun j =>
      (List.range 4).foldl
        (fun acc m =>
          acc +
            (if 4 * j + m < s.length then
              baseCode (s.reverse.getD (4 * j + m) 'A') * 4 ^ m
            else 0))
        0)

/-- C4: decoding a binary file whose 8-byte header declares
`kmer_nbits = 8` and `k = 4` and whose single record packs the 2-bit codes
of the bases of `"ACGT"` followed by the 4-byte frequency 7 yields exactly
`[("ACGT", 7)]` — the decoder inverts the specified packing. -/
theorem C4_kmer_binary_round_trip :
    parse_kmer_binary
        ([8, 0, 0, 0] ++ [4, 0, 0, 0] ++
          encodeKmer ['A', 'C', 'G', 'T'] ++ [7, 0, 0, 0]) =
      Except.ok [(['A', 'C', 'G', 'T'], 7)] := by
  rfl

theorem readExact_some {n : Nat} {bs kb rest : List Nat}
    (h : readExact n bs = some (kb, rest)) :
    kb = bs.take n ∧ rest = bs.drop n ∧ n ≤ bs.length := by
  unfold readExact at h
  split at h
  · rename_i hle
    simp only [Option.some.injEq, Prod.mk.injEq] at h
    exact ⟨h.1.symm, h.2.symm, hle⟩
  · simp at h

theorem readExact_none {n : Nat} {bs : List Nat} :
    readExact n bs = none ↔ bs.length < n := by
  unfold readExact
  split
  · rename_i h
    constructor
    · intro hc
      simp at hc
    · intro hc
      omega
  · rename_i h
    constructor
    · intro _
      omega
    · intro _
      rfl

theorem decodeKmer_isSome (kbytes : List Nat) :
    ∀ k, k ≤ 4 * kbytes.length → ∃ s, decodeKmer kbytes k = some s := by
  intro k
  induction k with
  | zero =>
    intro _
    exact ⟨[], rfl⟩
  | succ i ih =>
    intro hk
    obtain ⟨s, hs⟩ := ih (by omega)
    have hidx : i / 4 < kbytes.length := by omega
    have hb : kbytes[i / 4]? = some kbytes[i / 4] := List.getElem?_eq_getElem hidx
    refine ⟨actgChar ((kbytes[i / 4] >>> (2 * (i % 4))) % 4) :: s, ?_⟩
    unfold decodeKmer
    rw [hs, hb]

theorem parseRecords_ok (nbytes k : Nat) (hk : k ≤ 4 * nbytes) :
    ∀ fuel bs acc, bs.length < fuel →
      ∃ l, parseRecords nbytes k fuel bs acc = Except.ok l := by
  intro fuel
  induction fuel with
  | zero =>
    intro bs acc h
    omega
  | succ fuel ih =>
    intro bs acc h
    unfold parseRecords
    split
    · exact ⟨acc.reverse, rfl⟩
    · rename_i kb bs1 h1
      split
      · exact ⟨acc.reverse, rfl⟩
      · rename_i fb bs2 h2
        obtain ⟨hkb, hbs1, hle1⟩ := readExact_some h1
        obtain ⟨hfb, hbs2, hle2⟩ := readExact_some h2
        have hkblen : kb.length = nbytes := by
          rw [hkb, List.length_take]
          exact min_eq_left hle1
        obtain ⟨s, hs⟩ := decodeKmer_isSome kb k (by rw [hkblen]; exact hk)
        rw [hs]
        have hlen2 : bs2.length < fuel := by
          have l1 : bs1.length = bs.length - nbytes := by
            rw [hbs1, List.length_drop]
          have l2 : bs2.length = bs1.length - 4 := by
            rw [hbs2, List.length_drop]
          omega
        exact ih bs2 ((s, leNat fb) :: acc) hlen2

/-- Counterexample for C5 as stated: a file that is exactly the 8-byte
header (`kmer_nbits = 8`, `k = 4`) with nothing after it.  The header is
read successfully, then the very first record read fails — the claim calls
this fatal (file deleted, failure re-raised), but `except struct.error:
pass` treats it as a normal end of stream and the decoder returns the
empty record list. -/
theorem C5_counterexample :
    parse_kmer_binary [8, 0, 0, 0, 4, 0, 0, 0] = Except.ok [] ∧
      ∀ e, parse_kmer_binary [8, 0, 0, 0, 4, 0, 0, 0] ≠ Except.error e := by
  refine ⟨rfl, ?_⟩
  intro e h
  rw [show parse_kmer_binary [8, 0, 0, 0, 4, 0, 0, 0] =
      Except.ok [] from rfl] at h
  exact Except.noConfusion h

/-- C5 (amended): a `struct.error` while reading the 8-byte header — the
file holds fewer than 8 bytes — is fatal (the file is deleted and the
failure re-raised).  Once the header is fully read, any short or failed
record read — including one on the very first record, with zero records
decoded — is a normal end-of-stream condition, and the decoder returns the
entries decoded so far (for headers whose declared `k` fits in the
`kmer_nbits / 8` packed bytes; a header violating that dies with an
uncaught `IndexError` instead, which no read produced by the external tool
triggers). -/
theorem C5_parse_kmer_binary_amended (bs : List Nat) :
    (bs.length < 8 → parse_kmer_binary bs = Except.error ParseErr.headerShort) ∧
      (8 ≤ bs.length →
        leNat ((bs.drop 4).take 4) ≤ 4 * (leNat (bs.take 4) / 8) →
        ∃ l, parse_kmer_binary bs = Except.ok l) := by
  constructor
  · intro hlt
    unfold parse_kmer_binary
    split
    · rfl
    · rename_i nb bs1 h1
      split
      · rfl
      · rename_i kb bs2 h2
        exfalso
        obtain ⟨hnb, hbs1, hle⟩ := readExact_some h1
        obtain ⟨hkb, hbs2, hle2⟩ := readExact_some h2
        have : bs1.length = bs.length - 4 := by
          rw [hbs1, List.length_drop]
        omega
  · intro h8 hsane
    unfold parse_kmer_binary
    split
    · rename_i h1
      exfalso
      have := readExact_none.1 h1
      omega
    · rename_i nb bs1 h1
      split
      · rename_i h2
        exfalso
        obtain ⟨hnb, hbs1, hle⟩ := readExact_some h1
        have hl1 := readExact_none.1 h2
        have : bs1.length = bs.length - 4 := by
          rw [hbs1, List.length_drop]
        omega
      · rename_i kb bs2 h2
        obtain ⟨hnb, hbs1, hle⟩ := readExact_some h1
        obtain ⟨hkb, hbs2, hle2⟩ := readExact_some h2
        have hk : leNat kb ≤ 4 * (leNat nb / 8) := by
          rw [hkb, hbs1, hnb]
          exact hsane
        exact parseRecords_ok (leNat nb / 8) (leNat kb) hk
          (bs2.length + 1) bs2 [] (Nat.lt_succ_self _)

/-- Witness for C5 at a header-complete but record-truncated file (the
8-byte header declaring `kmer_nbits = 8`, `k = 4`, followed by a single
packed byte with its frequency missing): the decoder returns normally. -/
theorem C5_witness :
    ∃ l, parse_kmer_binary [8, 0, 0, 0, 4, 0, 0, 0, 30] = Except.ok l :=
  (C5_parse_kmer_binary_amended [8, 0, 0, 0, 4, 0, 0, 0, 30]).2
    (by decide) (by decide)

/-! ### swga/primers.py : the primer catalog
(`Primer`, `activate`, `update_Tms`, `update_in_chunks`) -/

/-- A row of the persisted `primers` table (`class Primer` in
`swga/primers.py`): nullable integer `_id`, primary-key `seq`, integer
frequencies, float `ratio`, nullable float `tm`, nullable serialized
`_locations` text, boolean `active`.  The floats are only stored and
compared here, never computed with, so they are modelled as
integer-valued. -/
structure PrimerRow where
  _id : Option Int
  seq : List Char
  fg_freq : Int
  bg_freq : Int
  ratio : Int
  tm : Option Int
  _locations : Option (List Char)
  active : Bool
deriving DecidableEq

/-- `activate(primers)` from `swga/primers.py`:
`Primer.update(active=True).where(Primer.seq << primers).execute()` sets
`active = true` on every persisted row whose `seq` is in the list and
returns the number of rows the UPDATE matched (SQLite counts every matched
row, whether or not `active` already was true). -/
def activate (db : List PrimerRow) (seqs : List (List Char)) :
    List PrimerRow × Nat :=
  (db.map (fun r => if r.seq ∈ seqs then { r with active := true } else r),
    db.countP (fun r => decide (r.seq ∈ seqs)))

/-- C6: `activate` sets `active = true` on exactly the rows whose `seq` is
a member of the list (the column-wise equations), leaves every other row
and every other field unchanged, creates and deletes nothing (so members
of the list with no matching row are silently ignored), and returns the
number of matched rows; a second call with the same list changes nothing
further and reports the same count. -/
theorem C6_activate_exact (db : List PrimerRow) (seqs : List (List Char)) :
    (activate db seqs).1.map PrimerRow.seq = db.map PrimerRow.seq ∧
      (activate db seqs).1.map PrimerRow._id = db.map PrimerRow._id ∧
      (activate db seqs).1.map PrimerRow.fg_freq = db.map PrimerRow.fg_freq ∧
      (activate db seqs).1.map PrimerRow.bg_freq = db.map PrimerRow.bg_freq ∧
      (activate db seqs).1.map PrimerRow.ratio = db.map PrimerRow.ratio ∧
      (activate db seqs).1.map PrimerRow.tm = db.map PrimerRow.tm ∧
      (activate db seqs).1.map PrimerRow._locations = db.map PrimerRow._locations ∧
      (activate db seqs).1.map PrimerRow.active =
        db.map (fun r => decide (r.seq ∈ seqs) || r.active) ∧
      (activate db seqs).2 = db.countP (fun r => decide (r.seq ∈ seqs)) ∧
      (activate (activate db seqs).1 seqs).1 = (activate db seqs).1 ∧
      (activate (activate db seqs).1 seqs).2 = (activate db seqs).2 := by
  unfold activate
  simp only [List.map_map, List.countP_map]
  refine ⟨?_, ?_, ?_, ?_, ?_, ?_, ?_, ?_, trivial, ?_, ?_⟩
  · apply List.map_congr_left
    intro r _
    by_cases h : r.seq ∈ seqs <;> simp [h]
  · apply List.map_congr_left
    intro r _
    by_cases h : r.seq ∈ seqs <;> simp [h]
  · apply List.map_congr_left
    intro r _
    by_cases h : r.seq ∈ seqs <;> simp [h]
  · apply List.map_congr_left
    intro r _
    by_cases h : r.seq ∈ seqs <;> simp [h]
  · apply List.map_congr_left
    intro r _
    by_cases h : r.seq ∈ seqs <;> simp [h]
  · apply List.map_congr_left
    intro r _
    by_cases h : r.seq ∈ seqs <;> simp [h]
  · apply List.map_congr_left
    intro r _
    by_cases h : r.seq ∈ seqs <;> simp [h]
  · apply List.map_congr_left
    intro r _
    by_cases h : r.seq ∈ seqs <;> simp [h]
  · apply List.map_congr_left
    intro r _
    by_cases h : r.seq ∈ seqs <;> simp [h]
  · apply List.countP_congr
    intro r _
    by_cases h : r.seq ∈ seqs <;> simp [h]

/-- Modelled from the spec (§4.6): `swga.core.chunk_iterator` — not in this
source tree — partitions the records into consecutive batches of at most
`n` elements, preserving order, and the caller applies its function to each
batch in order.  Fueled by the list length (each step consumes at least one
element for positive `n`, the only way it is used; the source default is
100). -/
def chunksOfGo {α : Type} (n : Nat) : Nat → List α → List (List α)
  | _, [] => []
  | 0, _ => []
  | fuel + 1, l => l.take n :: chunksOfGo n fuel (l.drop n)

/-- Modelled from the spec (§4.6): the batches `chunk_iterator` feeds to
its function. -/
def chunk_iterator {α : Type} (l : List α) (n : Nat) : List (List α) :=
  chunksOfGo n l.length l

/-- `upsert_chunk(chunk)` nested in `update_in_chunks` of
`swga/primers.py`: delete every persisted row whose `seq` occurs in the
chunk, then bulk-insert the chunk's records.  The table is modelled as a
row list: deletion filters, insertion appends. -/
def upsert_chunk (db chunk : List PrimerRow) : List PrimerRow :=
  db.filter (fun r => decide (r.seq ∉ chunk.map PrimerRow.seq)) ++ chunk

/-- `update_in_chunks(itr, chunksize)` from `swga/primers.py`: replay the
records through `upsert_chunk` one chunk at a time (source default
`chunksize = 100`). -/
def update_in_chunks (db recs : List PrimerRow) (chunksize : Nat) :
    List PrimerRow :=
  (chunk_iterator recs chunksize).foldl upsert_chunk db

/-- `primer.update_tm()` from `swga/primers.py`:
`self.tm = swga.melting.Tm(self.seq)`.  The melting-temperature estimator
`swga.melting.Tm` is not part of this source tree (§4.7 specifies it only
as a pure function of the sequence), so it is passed in uninterpreted. -/
def update_tm (TmF : List Char → Int) (r : PrimerRow) : PrimerRow :=
  { r with tm := some (TmF r.seq) }

/-- `update_Tms(primers)` from `swga/primers.py`: select the persisted
rows whose `seq` is in the list and whose `tm` is absent, compute each
`tm`, and persist the mutated records through `update_in_chunks` with the
default chunk size 100. -/
def update_Tms (TmF : List Char → Int) (db : List PrimerRow)
    (seqs : List (List Char)) : List PrimerRow :=
  update_in_chunks db
    ((db.filter
        (fun r => decide (r.seq ∈ seqs) && decide (r.tm = none))).map
      (update_tm TmF))
    100

theorem chunksOfGo_flatten {α : Type} (n : Nat) (hn : 0 < n) :
    ∀ fuel (l : List α), l.length ≤ fuel →
      (chunksOfGo n fuel l).flatten = l := by
  intro fuel
  induction fuel with
  | zero =>
    intro l hl
    have : l = [] := List.eq_nil_of_length_eq_zero (by omega)
    subst this
    rfl
  | succ fuel ih =>
    intro l hl
    cases l with
    | nil => rfl
    | cons a l' =>
      show ((a :: l').take n :: chunksOfGo n fuel ((a :: l').drop n)).flatten
        = a :: l'
      rw [List.flatten_cons,
        ih ((a :: l').drop n)
          (by
            simp only [List.length_drop, List.length_cons] at hl ⊢
            omega),
        List.take_append_drop]

theorem foldl_upsert_eq :
    ∀ (cs : List (List PrimerRow)) (db : List PrimerRow),
      (cs.flatten.map PrimerRow.seq).Nodup →
      cs.foldl upsert_chunk db =
        db.filter (fun r => decide (r.seq ∉ cs.flatten.map PrimerRow.seq))
          ++ cs.flatten := by
  intro cs
  induction cs with
  | nil =>
    intro db _
    simp
  | cons c cs ih =>
    intro db hnd
    have hnd' : (cs.flatten.map PrimerRow.seq).Nodup := by
      rw [List.flatten_cons, List.map_append, List.nodup_append] at hnd
      exact hnd.2.1
    have hdisj : ∀ r ∈ c, r.seq ∉ cs.flatten.map PrimerRow.seq := by
      rw [List.flatten_cons, List.map_append, List.nodup_append] at hnd
      intro r hr
      exact hnd.2.2 (List.mem_map_of_mem PrimerRow.seq hr)
    simp only [List.foldl_cons]
    rw [ih (upsert_chunk db c) hnd']
    unfold upsert_chunk
    rw [List.filter_append, List.filter_filter]
    have hc : c.filter
        (fun r => decide (r.seq ∉ cs.flatten.map PrimerRow.seq)) = c := by
      rw [List.filter_eq_self]
      intro r hr
      simpa using hdisj r hr
    have hdb : db.filter
        (fun a => decide (a.seq ∉ cs.flatten.map PrimerRow.seq) &&
          decide (a.seq ∉ c.map PrimerRow.seq)) =
        db.filter
          (fun r => decide (r.seq ∉ (c :: cs).flatten.map PrimerRow.seq)) := by
      apply List.filter_congr
      intro r _
      rw [List.flatten_cons, List.map_append]
      by_cases h1 : r.seq ∈ c.map PrimerRow.seq <;>
        by_cases h2 : r.seq ∈ cs.flatten.map PrimerRow.seq <;>
        simp [h1, h2]
    rw [hc, hdb, List.flatten_cons, List.append_assoc]

theorem update_in_chunks_eq (db recs : List PrimerRow) (n : Nat)
    (hn : 0 < n) (hnd : (recs.map PrimerRow.seq).Nodup) :
    update_in_chunks db recs n =
      db.filter (fun r => decide (r.seq ∉ recs.map PrimerRow.seq)) ++ recs := by
  unfold update_in_chunks chunk_iterator
  have hj : (chunksOfGo n recs.length recs).flatten = recs :=
    chunksOfGo_flatten n hn recs.length recs (Nat.le_refl _)
  have := foldl_upsert_eq (chunksOfGo n recs.length recs) db
    (by rw [hj]; exact hnd)
  rw [hj] at this
  exact this

/-- Point lookup by the primary key `seq` (SQL `WHERE seq = s`). -/
def findRow (db : List PrimerRow) (s : List Char) : Option PrimerRow :=
  db.find? (fun r => decide (r.seq = s))

theorem findRow_eq_some_iff {db : List PrimerRow} {s : List Char}
    (hnd : (db.map PrimerRow.seq).Nodup) {r : PrimerRow} :
    findRow db s = some r ↔ r ∈ db ∧ r.seq = s := by
  constructor
  · intro h
    exact ⟨List.mem_of_find?_eq_some h, by simpa using List.find?_some h⟩
  · rintro ⟨hmem, rfl⟩
    cases hf : findRow db r.seq with
    | none =>
      exfalso
      have := List.find?_eq_none.1 hf r hmem
      simp at this
    | some r' =>
      have h1 : r' ∈ db := List.mem_of_find?_eq_some hf
      have h2 : r'.seq = r.seq := by simpa using List.find?_some hf
      rw [List.inj_on_of_nodup_map hnd h1 hmem h2]

theorem findRow_eq_none_iff {db : List PrimerRow} {s : List Char} :
    findRow db s = none ↔ ∀ r ∈ db, r.seq ≠ s := by
  unfold findRow
  rw [List.find?_eq_none]
  simp

/-- C7: `update_Tms` modifies only the rows whose `seq` is in the given
list and whose `tm` is currently absent, setting their `tm` from the
melting-temperature estimator; every row whose `tm` is already present is
left completely unchanged even when its `seq` is listed (`tm` is computed
at most once, never recomputed), unlisted rows are untouched, and no rows
appear or disappear.  The hypothesis is the primary-key uniqueness of
`seq`. -/
theorem C7_update_Tms_frame (TmF : List Char → Int) (db : List PrimerRow)
    (seqs : List (List Char)) (hnd : (db.map PrimerRow.seq).Nodup)
    (s : List Char) :
    (findRow db s = none → findRow (update_Tms TmF db seqs) s = none) ∧
      (∀ r, findRow db s = some r → r.tm ≠ none →
        findRow (update_Tms TmF db seqs) s = some r) ∧
      (∀ r, findRow db s = some r → r.tm = none → s ∉ seqs →
        findRow (update_Tms TmF db seqs) s = some r) ∧
      (∀ r, findRow db s = some r → r.tm = none → s ∈ seqs →
        findRow (update_Tms TmF db seqs) s = some (update_tm TmF r)) := by
  have hq : ∀ r : PrimerRow,
      (decide (r.seq ∈ seqs) && decide (r.tm = none)) = true ↔
        r.seq ∈ seqs ∧ r.tm = none := by
    intro r
    simp
  set T := (db.filter
    (fun r => decide (r.seq ∈ seqs) && decide (r.tm = none))).map
      (update_tm TmF) with hT
  have hTseq : T.map PrimerRow.seq =
      (db.filter
        (fun r => decide (r.seq ∈ seqs) && decide (r.tm = none))).map
          PrimerRow.seq := by
    rw [hT, List.map_map]
    apply List.map_congr_left
    intro r _
    rfl
  have hTnd : (T.map PrimerRow.seq).Nodup := by
    rw [hTseq]
    exact List.Nodup.sublist
      (List.Sublist.map PrimerRow.seq (List.filter_sublist db)) hnd
  have hout : update_Tms TmF db seqs =
      db.filter (fun r => decide (r.seq ∉ T.map PrimerRow.seq)) ++ T := by
    unfold update_Tms
    rw [← hT]
    exact update_in_chunks_eq db T 100 (by omega) hTnd
  have hmemS : ∀ x : List Char, x ∈ T.map PrimerRow.seq ↔
      ∃ t ∈ db, t.seq = x ∧ t.seq ∈ seqs ∧ t.tm = none := by
    intro x
    rw [hTseq]
    constructor
    · intro hx
      rcases List.mem_map.1 hx with ⟨t, ht, rfl⟩
      rcases List.mem_filter.1 ht with ⟨htdb, htq⟩
      rcases (hq t).1 htq with ⟨h1, h2⟩
      exact ⟨t, htdb, rfl, h1, h2⟩
    · rintro ⟨t, htdb, rfl, h1, h2⟩
      exact List.mem_map_of_mem PrimerRow.seq
        (List.mem_filter.2 ⟨htdb, (hq t).2 ⟨h1, h2⟩⟩)
  have houtnd : ((update_Tms TmF db seqs).map PrimerRow.seq).Nodup := by
    rw [hout, List.map_append, List.nodup_append]
    refine ⟨List.Nodup.sublist
      (List.Sublist.map PrimerRow.seq (List.filter_sublist db)) hnd, hTnd, ?_⟩
    intro x hx1 hx2
    rcases List.mem_map.1 hx1 with ⟨t, ht, rfl⟩
    rcases List.mem_filter.1 ht with ⟨_, htp⟩
    simp only [decide_eq_true_eq] at htp
    exact htp hx2
  refine ⟨?_, ?_, ?_, ?_⟩
  · intro hnone
    rw [findRow_eq_none_iff] at hnone ⊢
    intro x hx
    rw [hout, List.mem_append] at hx
    rcases hx with hx | hx
    · exact hnone x (List.mem_filter.1 hx).1
    · rw [hT] at hx
      rcases List.mem_map.1 hx with ⟨t, ht, rfl⟩
      exact hnone t (List.mem_filter.1 ht).1
  · intro r hr htm
    rcases (findRow_eq_some_iff hnd).1 hr with ⟨hrdb, rfl⟩
    have hs : r.seq ∉ T.map PrimerRow.seq := by
      intro hx
      rcases (hmemS r.seq).1 hx with ⟨t, htdb, hts, _, httm⟩
      rw [List.inj_on_of_nodup_map hnd htdb hrdb hts] at httm
      exact htm httm
    apply (findRow_eq_some_iff houtnd).2
    refine ⟨?_, rfl⟩
    rw [hout, List.mem_append]
    exact Or.inl (List.mem_filter.2 ⟨hrdb, by simpa using hs⟩)
  · intro r hr htm hsel
    rcases (findRow_eq_some_iff hnd).1 hr with ⟨hrdb, rfl⟩
    have hs : r.seq ∉ T.map PrimerRow.seq := by
      intro hx
      rcases (hmemS r.seq).1 hx with ⟨t, htdb, hts, htin, _⟩
      rw [List.inj_on_of_nodup_map hnd htdb hrdb hts] at htin
      exact hsel htin
    apply (findRow_eq_some_iff houtnd).2
    refine ⟨?_, rfl⟩
    rw [hout, List.mem_append]
    exact Or.inl (List.mem_filter.2 ⟨hrdb, by simpa using hs⟩)
  · intro r hr htm hsel
    rcases (findRow_eq_some_iff hnd).1 hr with ⟨hrdb, rfl⟩
    apply (findRow_eq_some_iff houtnd).2
    refine ⟨?_, rfl⟩
    rw [hout, List.mem_append]
    refine Or.inr ?_
    rw [hT]
    exact List.mem_map_of_mem (update_tm TmF)
      (List.mem_filter.2 ⟨hrdb, (hq r).2 ⟨hsel, htm⟩⟩)

/-- Witness for C7 on a two-row catalog: the row whose `tm` is present is
returned unchanged even though its `seq` is listed, and the row whose `tm`
is absent gets `tm` from the estimator. -/
theorem C7_witness :
    findRow
        (update_Tms (fun _ => (42 : Int))
          [⟨none, ['A'], 0, 0, 0, some 5, none, false⟩,
            ⟨none, ['B'], 0, 0, 0, none, none, false⟩]
          [['A'], ['B']]) ['A'] =
      some ⟨none, ['A'], 0, 0, 0, some 5, none, false⟩ ∧
      findRow
          (update_Tms (fun _ => (42 : Int))
            [⟨none, ['A'], 0, 0, 0, some 5, none, false⟩,
              ⟨none, ['B'], 0, 0, 0, none, none, false⟩]
            [['A'], ['B']]) ['B'] =
        some (update_tm (fun _ => (42 : Int))
          ⟨none, ['B'], 0, 0, 0, none, none, false⟩) :=
  ⟨(C7_update_Tms_frame (fun _ => (42 : Int))
      [⟨none, ['A'], 0, 0, 0, some 5, none, false⟩,
        ⟨none, ['B'], 0, 0, 0, none, none, false⟩]
      [['A'], ['B']] (by decide) ['A']).2.1
      ⟨none, ['A'], 0, 0, 0, some 5, none, false⟩ (by decide) (by decide),
    (C7_update_Tms_frame (fun _ => (42 : Int))
      [⟨none, ['A'], 0, 0, 0, some 5, none, false⟩,
        ⟨none, ['B'], 0, 0, 0, none, none, false⟩]
      [['A'], ['B']] (by decide) ['B']).2.2.2
      ⟨none, ['B'], 0, 0, 0, none, none, false⟩ (by decide) (by decide)
      (by decide)⟩

theorem countP_eq_one_of_nodup {α : Type} [DecidableEq α] :
    ∀ {l : List α}, l.Nodup → ∀ {a : α}, a ∈ l →
      l.countP (fun x => decide (x = a)) = 1 := by
  intro l
  induction l with
  | nil =>
    intro _ a ha
    cases ha
  | cons b l ih =>
    intro hnd a ha
    rw [List.countP_cons]
    rcases List.mem_cons.1 ha with rfl | ha'
    · have hz : l.countP (fun x => decide (x = a)) = 0 := by
        apply List.countP_eq_zero.2
        intro x hx
        simp only [decide_eq_true_eq]
        intro hc
        exact (List.nodup_cons.1 hnd).1 (hc ▸ hx)
      simp [hz]
    · have hne : b ≠ a := fun h => (List.nodup_cons.1 hnd).1 (h ▸ ha')
      rw [ih (List.nodup_cons.1 hnd).2 ha']
      simp [hne]

/-- C8: with records of pairwise-distinct sequences spanning several chunks
(`recs.length > n > 0`), applying `update_in_chunks` twice with the same
list changes nothing beyond the first application, and in the resulting
catalog every listed sequence has exactly one row, namely the record from
the (second) application — no duplicated rows and no stale state. -/
theorem C8_update_in_chunks_idempotent (db recs : List PrimerRow) (n : Nat)
    (hn : 0 < n) (hspan : n < recs.length)
    (hnd : (recs.map PrimerRow.seq).Nodup) :
    update_in_chunks (update_in_chunks db recs n) recs n =
        update_in_chunks db recs n ∧
      ∀ s ∈ recs.map PrimerRow.seq,
        (update_in_chunks (update_in_chunks db recs n) recs n).countP
            (fun r => decide (r.seq = s)) = 1 ∧
          findRow (update_in_chunks (update_in_chunks db recs n) recs n) s =
            recs.find? (fun r => decide (r.seq = s)) := by
  have h1 : update_in_chunks db recs n =
      db.filter (fun r => decide (r.seq ∉ recs.map PrimerRow.seq)) ++ recs :=
    update_in_chunks_eq db recs n hn hnd
  have hrecsP : recs.filter
      (fun r => decide (r.seq ∉ recs.map PrimerRow.seq)) = [] := by
    rw [List.filter_eq_nil_iff]
    intro r hr
    simp only [decide_eq_true_eq, Decidable.not_not]
    exact List.mem_map_of_mem PrimerRow.seq hr
  have hPP : (db.filter
        (fun r => decide (r.seq ∉ recs.map PrimerRow.seq))).filter
      (fun r => decide (r.seq ∉ recs.map PrimerRow.seq)) =
      db.filter (fun r => decide (r.seq ∉ recs.map PrimerRow.seq)) := by
    rw [List.filter_eq_self]
    intro r hr
    exact (List.mem_filter.1 hr).2
  have hidem : update_in_chunks (update_in_chunks db recs n) recs n =
      update_in_chunks db recs n := by
    rw [update_in_chunks_eq (update_in_chunks db recs n) recs n hn hnd, h1,
      List.filter_append, hPP, hrecsP, List.append_nil]
  refine ⟨hidem, ?_⟩
  intro s hs
  constructor
  · rw [hidem, h1, List.countP_append]
    have hzero : (db.filter
        (fun r => decide (r.seq ∉ recs.map PrimerRow.seq))).countP
          (fun r => decide (r.seq = s)) = 0 := by
      apply List.countP_eq_zero.2
      intro r hr
      have := (List.mem_filter.1 hr).2
      simp only [decide_eq_true_eq] at this ⊢
      intro hc
      rw [hc] at this
      exact this hs
    have hone : recs.countP (fun r => decide (r.seq = s)) = 1 := by
      have hcong : (recs.map PrimerRow.seq).countP (fun x => decide (x = s)) =
          recs.countP (fun r => decide (r.seq = s)) :=
        List.countP_map (fun x => decide (x = s)) PrimerRow.seq recs
      rw [← hcong, countP_eq_one_of_nodup hnd hs]
    rw [hzero, hone]
  · rw [hidem, h1]
    unfold findRow
    rw [List.find?_append]
    have hnonef : (db.filter
        (fun r => decide (r.seq ∉ recs.map PrimerRow.seq))).find?
          (fun r => decide (r.seq = s)) = none := by
      apply List.find?_eq_none.2
      intro r hr
      have := (List.mem_filter.1 hr).2
      simp only [decide_eq_true_eq] at this ⊢
      intro hc
      rw [hc] at this
      exact this hs
    rw [hnonef, Option.none_or]

/-- Witness for C8 with chunk size 1 and two records (so the list spans two
chunks) over a catalog holding one stale row for the first sequence and one
unrelated row. -/
theorem C8_witness :
    update_in_chunks
        (update_in_chunks
          [⟨none, ['A'], 9, 9, 9, none, none, true⟩,
            ⟨none, ['Z'], 0, 0, 0, none, none, false⟩]
          [⟨none, ['A'], 1, 0, 0, none, none, false⟩,
            ⟨none, ['B'], 2, 0, 0, none, none, false⟩] 1)
        [⟨none, ['A'], 1, 0, 0, none, none, false⟩,
          ⟨none, ['B'], 2, 0, 0, none, none, false⟩] 1 =
      update_in_chunks
        [⟨none, ['A'], 9, 9, 9, none, none, true⟩,
          ⟨none, ['Z'], 0, 0, 0, none, none, false⟩]
        [⟨none, ['A'], 1, 0, 0, none, none, false⟩,
          ⟨none, ['B'], 2, 0, 0, none, none, false⟩] 1 :=
  (C8_update_in_chunks_idempotent
    [⟨none, ['A'], 9, 9, 9, none, none, true⟩,
      ⟨none, ['Z'], 0, 0, 0, none, none, false⟩]
    [⟨none, ['A'], 1, 0, 0, none, none, false⟩,
      ⟨none, ['B'], 2, 0, 0, none, none, false⟩] 1
    (by decide) (by decide) (by decide)).1
